import Mathlib

/-!
Verification of the outfield placement optimizer (`optimize_outfield` in
`app.py`).  Floating-point values are modelled as `Option ℝ`, where `none`
stands for IEEE NaN: every arithmetic operation propagates `none`, and any
comparison against a `none` value is false, exactly as NaN behaves in
numpy.  The mutable loop state `(best_score, best)` is modelled as
`Option (ℝ × Placement)`, where `none` is the initial state
`best_score = inf`, `best = {}`.
-/

namespace SluggerOpti

/-- A float value: `none` models NaN. -/
abbrev Flt := Option ℝ

/-- A batted-ball point as stored in the dataframe columns `x`, `y`
(possibly NaN). -/
abbrev Pt := Flt × Flt

/-- Subtraction of a (finite) grid coordinate from a float, as in
`bx - lf[0]`; NaN propagates. -/
noncomputable def fsub (a : Flt) (r : ℝ) : Flt := a.map (fun v => v - r)

/-- `np.hypot`: Euclidean norm `sqrt(dx^2 + dy^2)`; NaN propagates. -/
noncomputable def fhypot : Flt → Flt → Flt
  | some dx, some dy => some (Real.sqrt (dx ^ 2 + dy ^ 2))
  | none, _ => none
  | some _, none => none

/-- `np.minimum`: elementwise minimum; NaN propagates. -/
noncomputable def fmin : Flt → Flt → Flt
  | some a, some b => some (min a b)
  | none, _ => none
  | some _, none => none

/-- float addition (one step of `np.sum`); NaN propagates. -/
noncomputable def fadd : Flt → Flt → Flt
  | some a, some b => some (a + b)
  | none, _ => none
  | some _, none => none

/-- The optimizer's result dictionary `{"LF": lf, "CF": cf, "RF": rf}`. -/
structure Placement where
  LF : ℝ × ℝ
  CF : ℝ × ℝ
  RF : ℝ × ℝ

/-- Distance from a point to a candidate position:
`np.hypot(bx - g[0], by - g[1])` for one array entry. -/
noncomputable def fdist (p : Pt) (g : ℝ × ℝ) : Flt :=
  fhypot (fsub p.1 g.1) (fsub p.2 g.2)

/-- `total_distance`: per point the minimum of the three distances
`np.minimum(np.minimum(dlf, dcf), drf)`, summed over all points
(`dist_min.sum()`, empty sum is `0.0`). -/
noncomputable def totalDistance (pts : List Pt) (t : Placement) : Flt :=
  pts.foldl
    (fun acc p =>
      fadd acc (fmin (fmin (fdist p t.LF) (fdist p t.CF)) (fdist p t.RF)))
    (some 0)

/-- The three nested loops enumerate this flat list of triples:
LF outer, CF middle, RF inner. -/
def prodTriples (lfG cfG rfG : List (ℝ × ℝ)) : List Placement :=
  lfG.flatMap (fun lf => cfG.flatMap (fun cf => rfG.map (fun rf => ⟨lf, cf, rf⟩)))

/-- One iteration of the loop body:
`if total_distance < best_score: best_score, best = total_distance, triple`.
A NaN total never passes the comparison; `none` state is
`best_score = inf, best = {}`. -/
noncomputable def stepBest {α : Type} (costO : α → Option ℝ)
    (st : Option (ℝ × α)) (t : α) : Option (ℝ × α) :=
  match costO t, st with
  | none, s => s
  | some c, none => some (c, t)
  | some c, some (b, tb) => if c < b then some (c, t) else some (b, tb)

/-- The whole search loop: fold the loop body over the enumeration. -/
noncomputable def runBest {α : Type} (costO : α → Option ℝ)
    (ts : List α) : Option (ℝ × α) :=
  ts.foldl (stepBest costO) none

/-- The grid search with the three candidate grids as parameters
(the spec treats grid bounds as configuration). -/
noncomputable def optimizeThree (lfG cfG rfG : List (ℝ × ℝ))
    (pts : List Pt) : Option (ℝ × Placement) :=
  runBest (totalDistance pts) (prodTriples lfG cfG rfG)

/-- `lf_grid = [(x,y) for x in range(70,120,10) for y in range(260,330,10)]`:
x enumerates 70,80,90,100,110 and y enumerates 260,…,320. -/
noncomputable def lf_grid : List (ℝ × ℝ) :=
  [(70 : ℝ), 80, 90, 100, 110].flatMap
    (fun x => [(260 : ℝ), 270, 280, 290, 300, 310, 320].map (fun y => (x, y)))

/-- `cf_grid = [(x,y) for x in range(120,180,10) for y in range(310,380,10)]`. -/
noncomputable def cf_grid : List (ℝ × ℝ) :=
  [(120 : ℝ), 130, 140, 150, 160, 170].flatMap
    (fun x => [(310 : ℝ), 320, 330, 340, 350, 360, 370].map (fun y => (x, y)))

/-- `rf_grid = [(x,y) for x in range(180,230,10) for y in range(260,330,10)]`. -/
noncomputable def rf_grid : List (ℝ × ℝ) :=
  [(180 : ℝ), 190, 200, 210, 220].flatMap
    (fun x => [(260 : ℝ), 270, 280, 290, 300, 310, 320].map (fun y => (x, y)))

/-- `optimize_outfield`: run the search over the hard-coded grids and
return the best dictionary (`none` models the empty dict `{}`). -/
noncomputable def optimize_outfield (pts : List Pt) : Option Placement :=
  (optimizeThree lf_grid cf_grid rf_grid pts).map (fun st => st.2)

/-- The best `total_distance` found by the search (none models `inf`). -/
noncomputable def bestScore (lfG cfG rfG : List (ℝ × ℝ))
    (pts : List Pt) : Option ℝ :=
  (optimizeThree lfG cfG rfG pts).map (fun st => st.1)

/-- Embed a point with finite coordinates. -/
def finPt (p : ℝ × ℝ) : Pt := (some p.1, some p.2)

/-- Euclidean distance between finite points. -/
noncomputable def rdist (p g : ℝ × ℝ) : ℝ :=
  Real.sqrt ((p.1 - g.1) ^ 2 + (p.2 - g.2) ^ 2)

/-- `total_distance` for a list of finite points, as a real number. -/
noncomputable def realTotal (rpts : List (ℝ × ℝ)) (t : Placement) : ℝ :=
  rpts.foldl
    (fun acc p => acc + min (min (rdist p t.LF) (rdist p t.CF)) (rdist p t.RF))
    0

/-- Ordering on scores where `none` is `+inf`. -/
def scoreLE (a b : Option ℝ) : Prop :=
  ∀ y, b = some y → ∃ x, a = some x ∧ x ≤ y

/-- The input dataframe: the `x` and `y` columns read by the optimizer,
plus any other columns, which it never touches. -/
structure DataFrame where
  xcol : List Flt
  ycol : List Flt
  othercols : List (String × List Flt)

/-- `df["x"].to_numpy()`: a read, returning the dataframe unchanged. -/
def readColX (df : DataFrame) : DataFrame × List Flt := (df, df.xcol)

/-- `df["y"].to_numpy()`: a read, returning the dataframe unchanged. -/
def readColY (df : DataFrame) : DataFrame × List Flt := (df, df.ycol)

/-- `optimize_outfield` with its dataframe interactions made explicit as
state passing: each pandas call threads the dataframe through. -/
noncomputable def optimize_outfield_on_df (df : DataFrame) :
    DataFrame × Option Placement :=
  let rx := readColX df
  let ry := readColY rx.1
  (ry.1, (optimizeThree lf_grid cf_grid rf_grid (rx.2.zip ry.2)).map
    (fun st => st.2))

end SluggerOpti

namespace SluggerOpti

/-- If every cost in the list is NaN, the loop never updates its state. -/
theorem foldl_stepBest_none_costs {α : Type} (costO : α → Option ℝ) :
    ∀ (l : List α), (∀ t ∈ l, costO t = none) →
    ∀ (st : Option (ℝ × α)), l.foldl (stepBest costO) st = st := by
  intro l
  induction l with
  | nil => intro _ st; rfl
  | cons x l ih =>
    intro h st
    have hx : costO x = none := h x (by simp)
    have hstep : stepBest costO st x = st := by
      simp [stepBest, hx]
    rw [List.foldl_cons, hstep]
    exact ih (fun t ht => h t (by simp [ht])) st

/-- If every cost in the tail is at least `m`, the state `(m, tm)` survives. -/
theorem foldl_stepBest_keep {α : Type} (costO : α → Option ℝ) (m : ℝ) (tm : α) :
    ∀ (l : List α), (∀ x ∈ l, ∀ c, costO x = some c → m ≤ c) →
      l.foldl (stepBest costO) (some (m, tm)) = some (m, tm) := by
  intro l
  induction l with
  | nil => intro _; rfl
  | cons x l ih =>
    intro h
    have hstep : stepBest costO (some (m, tm)) x = some (m, tm) := by
      cases hcx : costO x with
      | none => simp [stepBest, hcx]
      | some c =>
        have hmc : m ≤ c := h x (by simp) c hcx
        simp [stepBest, hcx, not_lt.mpr hmc]
    rw [List.foldl_cons, hstep]
    exact ih (fun y hy c hc => h y (by simp [hy]) c hc)

/-- Over a prefix whose finite costs are all strictly above `m`, the state
stays either untouched (`inf`) or strictly above `m`. -/
theorem foldl_stepBest_high {α : Type} (costO : α → Option ℝ) (m : ℝ) :
    ∀ (l : List α), (∀ x ∈ l, ∃ c, costO x = some c ∧ m < c) →
    ∀ (st : Option (ℝ × α)),
      (st = none ∨ ∃ p, st = some p ∧ m < p.1) →
      (l.foldl (stepBest costO) st = none ∨
        ∃ p, l.foldl (stepBest costO) st = some p ∧ m < p.1) := by
  intro l
  induction l with
  | nil => intro _ st hst; exact hst
  | cons x l ih =>
    intro h st hst
    obtain ⟨c, hcx, hmc⟩ := h x (by simp)
    have hnext : (stepBest costO st x = none ∨
        ∃ p, stepBest costO st x = some p ∧ m < p.1) := by
      rcases hst with rfl | ⟨⟨b, tb⟩, rfl, hmb⟩
      · exact Or.inr ⟨(c, x), by simp [stepBest, hcx], hmc⟩
      · by_cases hcb : c < b
        · exact Or.inr ⟨(c, x), by simp [stepBest, hcx, hcb], hmc⟩
        · exact Or.inr ⟨(b, tb), by simp [stepBest, hcx, hcb], hmb⟩
    rw [List.foldl_cons]
    exact ih (fun y hy => h y (by simp [hy])) _ hnext

/-- Computing the result of the search directly: if every triple before
`tm` has finite cost strictly above `m`, `tm` has cost `m`, and everything
after has cost at least `m`, the search returns `(m, tm)`. -/
theorem runBest_concrete {α : Type} (costO : α → Option ℝ) (m : ℝ) (tm : α)
    (l1 l2 : List α)
    (h1 : ∀ x ∈ l1, ∃ c, costO x = some c ∧ m < c)
    (hm : costO tm = some m)
    (h2 : ∀ x ∈ l2, ∀ c, costO x = some c → m ≤ c) :
    runBest costO (l1 ++ tm :: l2) = some (m, tm) := by
  rw [runBest, List.foldl_append, List.foldl_cons]
  rcases foldl_stepBest_high costO m l1 h1 none (Or.inl rfl) with hn | ⟨⟨b, tb⟩, heq, hmb⟩
  · rw [hn]
    have hstep : stepBest costO (none : Option (ℝ × α)) tm = some (m, tm) := by
      simp [stepBest, hm]
    rw [hstep]
    exact foldl_stepBest_keep costO m tm l2 h2
  · rw [heq]
    have hstep : stepBest costO (some (b, tb)) tm = some (m, tm) := by
      simp [stepBest, hm, hmb]
    rw [hstep]
    exact foldl_stepBest_keep costO m tm l2 h2

/-- The search only ever returns an element of the list (or its
initial state). -/
theorem foldl_stepBest_mem {α : Type} (costO : α → Option ℝ) :
    ∀ (l : List α) (st : Option (ℝ × α)) (b : ℝ) (t : α),
      l.foldl (stepBest costO) st = some (b, t) →
      st = some (b, t) ∨ t ∈ l := by
  intro l
  induction l with
  | nil => intro st b t h; exact Or.inl h
  | cons x l ih =>
    intro st b t h
    rw [List.foldl_cons] at h
    rcases ih (stepBest costO st x) b t h with hst | hmem
    · cases hcx : costO x with
      | none =>
        left
        rw [← hst]
        simp [stepBest, hcx]
      | some c =>
        cases st with
        | none =>
          right
          have : stepBest costO (none : Option (ℝ × α)) x = some (c, x) := by
            simp [stepBest, hcx]
          rw [this] at hst
          have hx : x = t := (Prod.mk.injEq _ _ _ _).mp (Option.some.inj hst) |>.2
          simp [← hx]
        | some p =>
          obtain ⟨b0, t0⟩ := p
          by_cases hcb : c < b0
          · right
            have : stepBest costO (some (b0, t0)) x = some (c, x) := by
              simp [stepBest, hcx, hcb]
            rw [this] at hst
            have hx : x = t := (Prod.mk.injEq _ _ _ _).mp (Option.some.inj hst) |>.2
            simp [← hx]
          · left
            have : stepBest costO (some (b0, t0)) x = some (b0, t0) := by
              simp [stepBest, hcx, hcb]
            rw [this] at hst
            exact hst
    · exact Or.inr (by simp [hmem])

end SluggerOpti

namespace SluggerOpti

/-- Full characterization of the loop when every cost is finite:
starting from state `(b0, t0)` with `cost t0 = b0`, the loop ends in a
state `(b, t)` where `b` is the cost of `t`, `b` is a lower bound of all
costs seen, and `t` is the earliest element of `t0 :: l` attaining `b`. -/
theorem foldl_stepBest_char {α : Type} (costO : α → Option ℝ) (cost : α → ℝ)
    (hco : ∀ t, costO t = some (cost t)) :
    ∀ (l : List α) (b0 : ℝ) (t0 : α), cost t0 = b0 →
      ∃ b t, l.foldl (stepBest costO) (some (b0, t0)) = some (b, t) ∧
        cost t = b ∧ b ≤ b0 ∧ (∀ x ∈ l, b ≤ cost x) ∧
        ∃ l1 l2, t0 :: l = l1 ++ t :: l2 ∧ ∀ x ∈ l1, b < cost x := by
  intro l
  induction l with
  | nil =>
    intro b0 t0 h0
    exact ⟨b0, t0, rfl, h0, le_refl _, by simp, [], [], rfl, by simp⟩
  | cons x l ih =>
    intro b0 t0 h0
    have hstep : stepBest costO (some (b0, t0)) x =
        if cost x < b0 then some (cost x, x) else some (b0, t0) := by
      simp [stepBest, hco x]
    rw [List.foldl_cons, hstep]
    by_cases hx : cost x < b0
    · rw [if_pos hx]
      obtain ⟨b, t, heq, hct, hble, hall, l1, l2, hdec, hlt⟩ := ih (cost x) x rfl
      refine ⟨b, t, heq, hct, le_of_lt (lt_of_le_of_lt hble hx), ?_, t0 :: l1, l2, ?_, ?_⟩
      · intro y hy
        rcases List.mem_cons.mp hy with rfl | hy
        · exact hble
        · exact hall y hy
      · rw [List.cons_append, ← hdec]
      · intro y hy
        rcases List.mem_cons.mp hy with rfl | hy
        · rw [h0]; exact lt_of_le_of_lt hble hx
        · exact hlt y hy
    · rw [if_neg hx]
      have hb0x : b0 ≤ cost x := not_lt.mp hx
      obtain ⟨b, t, heq, hct, hble, hall, l1, l2, hdec, hlt⟩ := ih b0 t0 h0
      refine ⟨b, t, heq, hct, hble, ?_, ?_⟩
      · intro y hy
        rcases List.mem_cons.mp hy with rfl | hy
        · exact le_trans hble hb0x
        · exact hall y hy
      · cases l1 with
        | nil =>
          simp only [List.nil_append] at hdec
          obtain ⟨h1, h2⟩ := List.cons_eq_cons.mp hdec
          exact ⟨[], x :: l, by rw [List.nil_append, h1], by simp⟩
        | cons a l1 =>
          simp only [List.cons_append] at hdec
          obtain ⟨h1, h2⟩ := List.cons_eq_cons.mp hdec
          refine ⟨t0 :: x :: l1, l2, ?_, ?_⟩
          · rw [List.cons_append, List.cons_append, ← h2]
          · intro y hy
            rcases List.mem_cons.mp hy with rfl | hy
            · have hba : b < cost a := hlt a (by simp)
              rw [← h1] at hba
              exact hba
            rcases List.mem_cons.mp hy with rfl | hy
            · have hba : b < cost a := hlt a (by simp)
              rw [← h1, h0] at hba
              exact lt_of_lt_of_le hba hb0x
            · exact hlt y (by simp [hy])

/-- Characterization of the whole search on a non-empty enumeration with
finite costs. -/
theorem runBest_char {α : Type} (costO : α → Option ℝ) (cost : α → ℝ)
    (hco : ∀ t, costO t = some (cost t)) (t0 : α) (l : List α) :
    ∃ b t, runBest costO (t0 :: l) = some (b, t) ∧ cost t = b ∧
      (∀ x ∈ t0 :: l, b ≤ cost x) ∧
      ∃ l1 l2, t0 :: l = l1 ++ t :: l2 ∧ ∀ x ∈ l1, b < cost x := by
  have h0 : stepBest costO (none : Option (ℝ × α)) t0 = some (cost t0, t0) := by
    simp [stepBest, hco t0]
  obtain ⟨b, t, heq, hct, hble, hall, l1, l2, hdec, hlt⟩ :=
    foldl_stepBest_char costO cost hco l (cost t0) t0 rfl
  refine ⟨b, t, ?_, hct, ?_, l1, l2, hdec, hlt⟩
  · rw [runBest, List.foldl_cons, h0]
    exact heq
  · intro x hx
    rcases List.mem_cons.mp hx with rfl | hx
    · exact hble
    · exact hall x hx

end SluggerOpti

namespace SluggerOpti

/-- On points with finite coordinates `total_distance` is the finite real
sum of per-point minimum distances. -/
theorem totalDistance_finPt (rpts : List (ℝ × ℝ)) (t : Placement) :
    totalDistance (rpts.map finPt) t = some (realTotal rpts t) := by
  have key : ∀ (l : List (ℝ × ℝ)) (a : ℝ),
      (l.map finPt).foldl
        (fun acc p =>
          fadd acc (fmin (fmin (fdist p t.LF) (fdist p t.CF)) (fdist p t.RF)))
        (some a) =
      some (l.foldl
        (fun acc p =>
          acc + min (min (rdist p t.LF) (rdist p t.CF)) (rdist p t.RF)) a) := by
    intro l
    induction l with
    | nil => intro a; rfl
    | cons p l ih =>
      intro a
      rw [List.map_cons, List.foldl_cons, List.foldl_cons]
      have hone : fadd (some a)
          (fmin (fmin (fdist (finPt p) t.LF) (fdist (finPt p) t.CF))
            (fdist (finPt p) t.RF)) =
          some (a + min (min (rdist p t.LF) (rdist p t.CF)) (rdist p t.RF)) := by
        simp [fadd, fmin, fdist, finPt, fsub, fhypot, rdist]
      rw [hone]
      exact ih _
  rw [totalDistance, realTotal]
  exact key rpts 0

/-- The per-point minimum distance term is NaN whenever the point has a
NaN coordinate. -/
theorem fdist_nan (p : Pt) (hp : p.1 = none ∨ p.2 = none) (g : ℝ × ℝ) :
    fdist p g = none := by
  obtain ⟨p1, p2⟩ := p
  rcases hp with h | h <;> simp only at h <;> subst h
  · simp [fdist, fsub, fhypot]
  · rcases p1 with _ | v <;> simp [fdist, fsub, fhypot]

/-- Adding NaN to anything is NaN. -/
theorem fadd_none_right (a : Flt) : fadd a none = none := by
  rcases a with _ | v <;> simp [fadd]

/-- A sum that has gone NaN stays NaN. -/
theorem foldl_fadd_none (t : Placement) :
    ∀ (l : List Pt),
      l.foldl
        (fun acc p =>
          fadd acc (fmin (fmin (fdist p t.LF) (fdist p t.CF)) (fdist p t.RF)))
        none = none := by
  intro l
  induction l with
  | nil => rfl
  | cons p l ih =>
    rw [List.foldl_cons]
    have : fadd none
        (fmin (fmin (fdist p t.LF) (fdist p t.CF)) (fdist p t.RF)) = none := by
      simp [fadd]
    rw [this]
    exact ih

/-- If any point of the set has a NaN coordinate, `total_distance` is NaN
for every candidate triple. -/
theorem totalDistance_nan (pts : List Pt) (t : Placement)
    (h : ∃ p ∈ pts, p.1 = none ∨ p.2 = none) :
    totalDistance pts t = none := by
  rw [totalDistance]
  have key : ∀ (l : List Pt) (acc : Flt),
      (∃ p ∈ l, p.1 = none ∨ p.2 = none) →
      l.foldl
        (fun acc p =>
          fadd acc (fmin (fmin (fdist p t.LF) (fdist p t.CF)) (fdist p t.RF)))
        acc = none := by
    intro l
    induction l with
    | nil => intro acc h; simp at h
    | cons p l ih =>
      intro acc h
      rw [List.foldl_cons]
      by_cases hp : p.1 = none ∨ p.2 = none
      · have hterm : fadd acc
            (fmin (fmin (fdist p t.LF) (fdist p t.CF)) (fdist p t.RF)) = none := by
          rw [fdist_nan p hp t.LF]
          have : fmin (fmin (none : Flt) (fdist p t.CF)) (fdist p t.RF) = none := by
            simp [fmin]
          rw [this]
          exact fadd_none_right acc
        rw [hterm]
        exact foldl_fadd_none t l
      · obtain ⟨q, hq, hqn⟩ := h
        rcases List.mem_cons.mp hq with rfl | hq
        · exact absurd hqn hp
        · exact ih _ ⟨q, hq, hqn⟩
  exact key pts (some 0) h

/-- Each Euclidean distance is non-negative. -/
theorem rdist_nonneg (p g : ℝ × ℝ) : 0 ≤ rdist p g := Real.sqrt_nonneg _

/-- The best total distance is a sum of non-negative minima. -/
theorem realTotal_nonneg (rpts : List (ℝ × ℝ)) (t : Placement) :
    0 ≤ realTotal rpts t := by
  rw [realTotal]
  have key : ∀ (l : List (ℝ × ℝ)) (a : ℝ), 0 ≤ a →
      0 ≤ l.foldl
        (fun acc p =>
          acc + min (min (rdist p t.LF) (rdist p t.CF)) (rdist p t.RF)) a := by
    intro l
    induction l with
    | nil => intro a ha; exact ha
    | cons p l ih =>
      intro a ha
      rw [List.foldl_cons]
      refine ih _ (add_nonneg ha ?_)
      exact le_min (le_min (rdist_nonneg p t.LF) (rdist_nonneg p t.CF))
        (rdist_nonneg p t.RF)
  exact key rpts 0 le_rfl

/-- Membership in the enumeration is membership of the three components
in their grids. -/
theorem mem_prodTriples {t : Placement} {a b c : List (ℝ × ℝ)} :
    t ∈ prodTriples a b c ↔ t.LF ∈ a ∧ t.CF ∈ b ∧ t.RF ∈ c := by
  constructor
  · intro h
    simp only [prodTriples, List.mem_flatMap, List.mem_map] at h
    obtain ⟨lf, hlf, cf, hcf, rf, hrf, rfl⟩ := h
    exact ⟨hlf, hcf, hrf⟩
  · rintro ⟨h1, h2, h3⟩
    simp only [prodTriples, List.mem_flatMap, List.mem_map]
    exact ⟨t.LF, h1, t.CF, h2, t.RF, h3, rfl⟩

/-- The enumeration splits along a split of the outer (LF) grid. -/
theorem prodTriples_append (A B cfG rfG : List (ℝ × ℝ)) :
    prodTriples (A ++ B) cfG rfG =
      prodTriples A cfG rfG ++ prodTriples B cfG rfG := by
  simp [prodTriples]

end SluggerOpti

namespace SluggerOpti

/-- The first triple in enumeration order: the heads of the three grids. -/
noncomputable def plc0 : Placement := ⟨(70, 260), (120, 310), (180, 260)⟩

/-- The enumeration of the hard-coded grids starts with `plc0`. -/
theorem prodTriples_grids_cons :
    ∃ T, prodTriples lf_grid cf_grid rf_grid = plc0 :: T := ⟨_, rfl⟩

/-- With no points every candidate total is the empty sum `0.0`. -/
theorem totalDistance_nil (t : Placement) : totalDistance [] t = some 0 := rfl

/-- On the empty point set, the first triple scores `0`, nothing later
improves on it, so the search returns score `0` with the first triple. -/
theorem optThree_nil :
    optimizeThree lf_grid cf_grid rf_grid [] = some (0, plc0) := by
  obtain ⟨T, hT⟩ := prodTriples_grids_cons
  rw [optimizeThree, hT]
  have h := runBest_concrete (totalDistance []) 0 plc0 [] T
    (by simp)
    (totalDistance_nil plc0)
    (by
      intro x hx c hc
      rw [totalDistance_nil x] at hc
      exact le_of_eq (Option.some.inj hc))
  rw [List.nil_append] at h
  exact h

/-- On the empty point set the optimizer returns the first grid triple. -/
theorem opt_nil_eq : optimize_outfield [] = some plc0 := by
  rw [optimize_outfield, optThree_nil]
  rfl

end SluggerOpti

namespace SluggerOpti

/-- Every LF candidate has x at most 110. -/
theorem lf_x_ub : ∀ p ∈ lf_grid, p.1 ≤ 110 := by
  intro p hp
  simp only [lf_grid, List.mem_flatMap, List.mem_map] at hp
  obtain ⟨x, hx, y, hy, rfl⟩ := hp
  simp only [List.mem_cons, List.not_mem_nil, or_false] at hx
  rcases hx with rfl | rfl | rfl | rfl | rfl <;> norm_num

/-- Every CF candidate has x at least 120. -/
theorem cf_x_lb : ∀ p ∈ cf_grid, 120 ≤ p.1 := by
  intro p hp
  simp only [cf_grid, List.mem_flatMap, List.mem_map] at hp
  obtain ⟨x, hx, y, hy, rfl⟩ := hp
  simp only [List.mem_cons, List.not_mem_nil, or_false] at hx
  rcases hx with rfl | rfl | rfl | rfl | rfl | rfl <;> norm_num

/-- Every CF candidate has x at most 170. -/
theorem cf_x_ub : ∀ p ∈ cf_grid, p.1 ≤ 170 := by
  intro p hp
  simp only [cf_grid, List.mem_flatMap, List.mem_map] at hp
  obtain ⟨x, hx, y, hy, rfl⟩ := hp
  simp only [List.mem_cons, List.not_mem_nil, or_false] at hx
  rcases hx with rfl | rfl | rfl | rfl | rfl | rfl <;> norm_num

/-- Every RF candidate has x at least 180. -/
theorem rf_x_lb : ∀ p ∈ rf_grid, 180 ≤ p.1 := by
  intro p hp
  simp only [rf_grid, List.mem_flatMap, List.mem_map] at hp
  obtain ⟨x, hx, y, hy, rfl⟩ := hp
  simp only [List.mem_cons, List.not_mem_nil, or_false] at hx
  rcases hx with rfl | rfl | rfl | rfl | rfl <;> norm_num

/-- Every LF candidate has y between 260 and 320. -/
theorem lf_y_bounds : ∀ p ∈ lf_grid, 260 ≤ p.2 ∧ p.2 ≤ 320 := by
  intro p hp
  simp only [lf_grid, List.mem_flatMap, List.mem_map] at hp
  obtain ⟨x, hx, y, hy, rfl⟩ := hp
  simp only [List.mem_cons, List.not_mem_nil, or_false] at hy
  rcases hy with rfl | rfl | rfl | rfl | rfl | rfl | rfl <;> constructor <;> norm_num

/-- Every CF candidate has y between 310 and 370. -/
theorem cf_y_bounds : ∀ p ∈ cf_grid, 310 ≤ p.2 ∧ p.2 ≤ 370 := by
  intro p hp
  simp only [cf_grid, List.mem_flatMap, List.mem_map] at hp
  obtain ⟨x, hx, y, hy, rfl⟩ := hp
  simp only [List.mem_cons, List.not_mem_nil, or_false] at hy
  rcases hy with rfl | rfl | rfl | rfl | rfl | rfl | rfl <;> constructor <;> norm_num

/-- Every RF candidate has y between 260 and 320. -/
theorem rf_y_bounds : ∀ p ∈ rf_grid, 260 ≤ p.2 ∧ p.2 ≤ 320 := by
  intro p hp
  simp only [rf_grid, List.mem_flatMap, List.mem_map] at hp
  obtain ⟨x, hx, y, hy, rfl⟩ := hp
  simp only [List.mem_cons, List.not_mem_nil, or_false] at hy
  rcases hy with rfl | rfl | rfl | rfl | rfl | rfl | rfl <;> constructor <;> norm_num

end SluggerOpti

namespace SluggerOpti

/-- C1: for every point set with finite coordinates the optimizer returns
a triple from the enumerated grid product whose total distance is minimal
over all grid triples. -/
theorem optimize_outfield_minimizes (rpts : List (ℝ × ℝ)) :
    ∃ t, optimize_outfield (rpts.map finPt) = some t ∧
      t ∈ prodTriples lf_grid cf_grid rf_grid ∧
      ∀ u ∈ prodTriples lf_grid cf_grid rf_grid,
        realTotal rpts t ≤ realTotal rpts u := by
  obtain ⟨T, hT⟩ := prodTriples_grids_cons
  obtain ⟨b, t, heq, hct, hall, l1, l2, hdec, hlt⟩ :=
    runBest_char (totalDistance (rpts.map finPt)) (realTotal rpts)
      (totalDistance_finPt rpts) plc0 T
  refine ⟨t, ?_, ?_, ?_⟩
  · rw [optimize_outfield, optimizeThree, hT, heq]
    rfl
  · rw [hT, hdec]
    simp
  · intro u hu
    rw [hT] at hu
    rw [hct]
    exact hall u hu

/-- C4: the search replaces the best triple only on strict improvement,
so the returned triple is the earliest one, in the canonical enumeration
order (LF outer, CF middle, RF inner), attaining the minimal total
distance. -/
theorem tie_break_earliest (rpts : List (ℝ × ℝ)) :
    ∃ t l1 l2, optimize_outfield (rpts.map finPt) = some t ∧
      prodTriples lf_grid cf_grid rf_grid = l1 ++ t :: l2 ∧
      (∀ u ∈ l1, realTotal rpts t < realTotal rpts u) ∧
      ∀ u ∈ prodTriples lf_grid cf_grid rf_grid,
        realTotal rpts t ≤ realTotal rpts u := by
  obtain ⟨T, hT⟩ := prodTriples_grids_cons
  obtain ⟨b, t, heq, hct, hall, l1, l2, hdec, hlt⟩ :=
    runBest_char (totalDistance (rpts.map finPt)) (realTotal rpts)
      (totalDistance_finPt rpts) plc0 T
  refine ⟨t, l1, l2, ?_, ?_, ?_, ?_⟩
  · rw [optimize_outfield, optimizeThree, hT, heq]
    rfl
  · rw [hT, hdec]
  · intro u hu
    rw [hct]
    exact hlt u hu
  · intro u hu
    rw [hT] at hu
    rw [hct]
    exact hall u hu

/-- C5: the optimizer is a deterministic function of its input: identical
inputs yield identical outputs. -/
theorem optimizer_deterministic (pts1 pts2 : List Pt) (h : pts1 = pts2) :
    optimize_outfield pts1 = optimize_outfield pts2 := by
  rw [h]

/-- Witness for C5 at a concrete input. -/
theorem optimizer_deterministic_wit :
    ([(some (150 : ℝ), some (300 : ℝ))] : List Pt) =
      [(some (150 : ℝ), some (300 : ℝ))] ∧
    optimize_outfield [(some (150 : ℝ), some (300 : ℝ))] =
      optimize_outfield [(some (150 : ℝ), some (300 : ℝ))] :=
  ⟨rfl, optimizer_deterministic _ _ rfl⟩

/-- C7: on a non-empty point set the selected triple's total distance is
non-negative. -/
theorem best_total_distance_nonneg (rpts : List (ℝ × ℝ)) (_hne : rpts ≠ []) :
    ∃ b t, optimize_outfield (rpts.map finPt) = some t ∧
      bestScore lf_grid cf_grid rf_grid (rpts.map finPt) = some b ∧
      realTotal rpts t = b ∧ 0 ≤ b := by
  obtain ⟨T, hT⟩ := prodTriples_grids_cons
  obtain ⟨b, t, heq, hct, hall, l1, l2, hdec, hlt⟩ :=
    runBest_char (totalDistance (rpts.map finPt)) (realTotal rpts)
      (totalDistance_finPt rpts) plc0 T
  refine ⟨b, t, ?_, ?_, hct, hct ▸ realTotal_nonneg rpts t⟩
  · rw [optimize_outfield, optimizeThree, hT, heq]
    rfl
  · rw [bestScore, optimizeThree, hT, heq]
    rfl

/-- Witness for C7 at a concrete non-empty point set. -/
theorem best_total_distance_nonneg_wit :
    ([((150 : ℝ), (300 : ℝ))] : List (ℝ × ℝ)) ≠ [] ∧
    ∃ b t, optimize_outfield ([((150 : ℝ), (300 : ℝ))].map finPt) = some t ∧
      bestScore lf_grid cf_grid rf_grid ([((150 : ℝ), (300 : ℝ))].map finPt) =
        some b ∧
      realTotal [((150 : ℝ), (300 : ℝ))] t = b ∧ 0 ≤ b :=
  ⟨by simp, best_total_distance_nonneg _ (by simp)⟩

end SluggerOpti

namespace SluggerOpti

/-- C2 counterexample: on the empty point set the optimizer returns the
first grid triple — concrete grid positions, not a NaN "no solution"
result. -/
theorem empty_returns_first_grid_triple :
    optimize_outfield [] = some plc0 ∧
    plc0.LF ∈ lf_grid ∧ plc0.CF ∈ cf_grid ∧ plc0.RF ∈ rf_grid := by
  refine ⟨opt_nil_eq, ?_, ?_, ?_⟩ <;> simp [plc0, lf_grid, cf_grid, rf_grid]

/-- C2 (amended): on the empty point set the optimizer never fails and the
best score is zero, but the returned positions are the first triple of the
grid enumeration (LF=(70,260), CF=(120,310), RF=(180,260)), all concrete
grid candidates. -/
theorem empty_input_behavior :
    optimizeThree lf_grid cf_grid rf_grid [] = some (0, plc0) ∧
    optimize_outfield [] = some plc0 ∧
    plc0.LF ∈ lf_grid ∧ plc0.CF ∈ cf_grid ∧ plc0.RF ∈ rf_grid := by
  refine ⟨optThree_nil, opt_nil_eq, ?_, ?_, ?_⟩ <;>
    simp [plc0, lf_grid, cf_grid, rf_grid]

/-- C3 counterexample: the empty point set yields concrete positions, but
adding one NaN point makes the optimizer return the empty dictionary: the
positions change and no LF/CF/RF positions are returned at all. -/
theorem nan_changes_result :
    optimize_outfield ([] : List Pt) = some plc0 ∧
    optimize_outfield [((none : Flt), (some (300 : ℝ) : Flt))] = none := by
  refine ⟨opt_nil_eq, ?_⟩
  have hall : ∀ t ∈ prodTriples lf_grid cf_grid rf_grid,
      totalDistance [((none : Flt), (some (300 : ℝ) : Flt))] t = none :=
    fun t _ => totalDistance_nan _ t ⟨(none, some 300), by simp, Or.inl rfl⟩
  have hz := foldl_stepBest_none_costs
    (totalDistance [((none : Flt), (some (300 : ℝ) : Flt))])
    (prodTriples lf_grid cf_grid rf_grid) hall none
  rw [optimize_outfield, optimizeThree, runBest, hz]
  rfl

/-- C3 (amended): a point with a NaN coordinate is NOT excluded: it makes
every candidate total NaN, no candidate ever improves `best_score`, and
the optimizer returns the empty dictionary with no positions. -/
theorem nan_point_poisons (pts : List Pt)
    (h : ∃ p ∈ pts, p.1 = none ∨ p.2 = none) :
    optimize_outfield pts = none := by
  have hall : ∀ t ∈ prodTriples lf_grid cf_grid rf_grid,
      totalDistance pts t = none :=
    fun t _ => totalDistance_nan pts t h
  have hz := foldl_stepBest_none_costs (totalDistance pts)
    (prodTriples lf_grid cf_grid rf_grid) hall none
  rw [optimize_outfield, optimizeThree, runBest, hz]
  rfl

/-- Witness for the amended C3 at a concrete NaN point. -/
theorem nan_point_poisons_wit :
    (∃ p ∈ [((none : Flt), (some (300 : ℝ) : Flt))],
      p.1 = none ∨ p.2 = none) ∧
    optimize_outfield [((none : Flt), (some (300 : ℝ) : Flt))] = none :=
  ⟨⟨(none, some 300), by simp, Or.inl rfl⟩,
    nan_point_poisons _ ⟨(none, some 300), by simp, Or.inl rfl⟩⟩

/-- C9 counterexample: LF candidate (70,320) and CF candidate (120,310)
are both enumerated, yet the CF candidate is NOT deeper than the LF
candidate — the CF y-range overlaps the corner y-ranges. -/
theorem center_not_always_deeper :
    ((70 : ℝ), (320 : ℝ)) ∈ lf_grid ∧ ((120 : ℝ), (310 : ℝ)) ∈ cf_grid ∧
    ¬ ((320 : ℝ) < (310 : ℝ)) := by
  refine ⟨?_, ?_, by norm_num⟩ <;> simp [lf_grid, cf_grid]

/-- C9 (amended): the grids preserve left < center < right (every LF x is
below every CF x, which is below every RF x), the CF y-range [310,370] is
shifted deeper than the LF/RF y-range [260,320] (its endpoints are both
deeper) though the ranges overlap, and any returned triple lies in the
grids and so respects the x-ordering. -/
theorem zone_ordering (pts : List Pt) (t : Placement)
    (h : optimize_outfield pts = some t) :
    t.LF ∈ lf_grid ∧ t.CF ∈ cf_grid ∧ t.RF ∈ rf_grid ∧
    t.LF.1 < t.CF.1 ∧ t.CF.1 < t.RF.1 ∧
    (∀ p ∈ lf_grid, ∀ q ∈ cf_grid, p.1 < q.1) ∧
    (∀ q ∈ cf_grid, ∀ r ∈ rf_grid, q.1 < r.1) ∧
    (∀ p ∈ lf_grid, 260 ≤ p.2 ∧ p.2 ≤ 320) ∧
    (∀ q ∈ cf_grid, 310 ≤ q.2 ∧ q.2 ≤ 370) ∧
    (∀ r ∈ rf_grid, 260 ≤ r.2 ∧ r.2 ≤ 320) := by
  rw [optimize_outfield] at h
  obtain ⟨⟨b, t'⟩, hopt, ht⟩ := Option.map_eq_some'.mp h
  simp only at ht
  subst ht
  rw [optimizeThree, runBest] at hopt
  have hmem := foldl_stepBest_mem (totalDistance pts)
    (prodTriples lf_grid cf_grid rf_grid) none b t' hopt
  rcases hmem with habs | hmem
  · exact absurd habs (by simp)
  obtain ⟨h1, h2, h3⟩ := mem_prodTriples.mp hmem
  refine ⟨h1, h2, h3,
    lt_of_le_of_lt (lf_x_ub _ h1) (lt_of_lt_of_le (by norm_num) (cf_x_lb _ h2)),
    lt_of_le_of_lt (cf_x_ub _ h2) (lt_of_lt_of_le (by norm_num) (rf_x_lb _ h3)),
    ?_, ?_, lf_y_bounds, cf_y_bounds, rf_y_bounds⟩
  · intro p hp q hq
    exact lt_of_le_of_lt (lf_x_ub p hp)
      (lt_of_lt_of_le (by norm_num) (cf_x_lb q hq))
  · intro q hq r hr
    exact lt_of_le_of_lt (cf_x_ub q hq)
      (lt_of_lt_of_le (by norm_num) (rf_x_lb r hr))

set_option maxRecDepth 4000 in
/-- Witness for the amended C9 at the empty point set. -/
theorem zone_ordering_wit :
    optimize_outfield [] = some plc0 ∧
    (plc0.LF ∈ lf_grid ∧ plc0.CF ∈ cf_grid ∧ plc0.RF ∈ rf_grid ∧
    plc0.LF.1 < plc0.CF.1 ∧ plc0.CF.1 < plc0.RF.1 ∧
    (∀ p ∈ lf_grid, ∀ q ∈ cf_grid, p.1 < q.1) ∧
    (∀ q ∈ cf_grid, ∀ r ∈ rf_grid, q.1 < r.1) ∧
    (∀ p ∈ lf_grid, 260 ≤ p.2 ∧ p.2 ≤ 320) ∧
    (∀ q ∈ cf_grid, 310 ≤ q.2 ∧ q.2 ≤ 370) ∧
    (∀ r ∈ rf_grid, 260 ≤ r.2 ∧ r.2 ≤ 320)) :=
  ⟨opt_nil_eq, zone_ordering [] plc0 opt_nil_eq⟩

/-- C10: the optimizer only reads the dataframe's columns — the dataframe
is returned unchanged and the computed result is a pure function of the
column values. -/
theorem optimize_outfield_no_mutation (df : DataFrame) :
    (optimize_outfield_on_df df).1 = df ∧
    (optimize_outfield_on_df df).2 =
      optimize_outfield (df.xcol.zip df.ycol) := by
  constructor
  · rfl
  · simp only [optimize_outfield_on_df, optimize_outfield, readColX, readColY]

end SluggerOpti

namespace SluggerOpti

/-- C6: refining any (or all) of the three candidate grids to supersets
never increases the optimal total distance (`none` scores as infinity). -/
theorem grid_refinement_monotone (rpts : List (ℝ × ℝ)) (_hne : rpts ≠ [])
    (lfG cfG rfG lfG2 cfG2 rfG2 : List (ℝ × ℝ))
    (h1 : lfG ⊆ lfG2) (h2 : cfG ⊆ cfG2) (h3 : rfG ⊆ rfG2) :
    scoreLE (bestScore lfG2 cfG2 rfG2 (rpts.map finPt))
      (bestScore lfG cfG rfG (rpts.map finPt)) := by
  intro y hy
  rw [bestScore] at hy
  obtain ⟨⟨b, t⟩, hopt, hb⟩ := Option.map_eq_some'.mp hy
  simp only at hb
  rcases hce : prodTriples lfG cfG rfG with _ | ⟨t0, T⟩
  · rw [optimizeThree, hce] at hopt
    simp [runBest] at hopt
  · rw [optimizeThree, hce] at hopt
    obtain ⟨b', t', heq, hct, hall, l1, l2, hdec, hlt⟩ :=
      runBest_char (totalDistance (rpts.map finPt)) (realTotal rpts)
        (totalDistance_finPt rpts) t0 T
    rw [heq] at hopt
    obtain ⟨hbb, htt⟩ := Prod.mk.injEq b' t' b t ▸ Option.some.inj hopt
    have htmem : t ∈ prodTriples lfG cfG rfG := by
      rw [hce, hdec, ← htt]
      simp
    have htfine : t ∈ prodTriples lfG2 cfG2 rfG2 := by
      obtain ⟨m1, m2, m3⟩ := mem_prodTriples.mp htmem
      exact mem_prodTriples.mpr ⟨h1 m1, h2 m2, h3 m3⟩
    rcases hfe : prodTriples lfG2 cfG2 rfG2 with _ | ⟨s0, S⟩
    · rw [hfe] at htfine
      simp at htfine
    · obtain ⟨bf, tf, heqf, hctf, hallf, _⟩ :=
        runBest_char (totalDistance (rpts.map finPt)) (realTotal rpts)
          (totalDistance_finPt rpts) s0 S
      refine ⟨bf, ?_, ?_⟩
      · rw [bestScore, optimizeThree, hfe, heqf]
        rfl
      · have hle : bf ≤ realTotal rpts t := by
          apply hallf t
          rw [← hfe]
          exact htfine
        calc bf ≤ realTotal rpts t := hle
          _ = y := by rw [← htt, hct, hbb, hb]

/-- Witness for C6 at concrete singleton grids. -/
theorem grid_refinement_monotone_wit :
    ([((150 : ℝ), (300 : ℝ))] : List (ℝ × ℝ)) ≠ [] ∧
    scoreLE
      (bestScore [((100 : ℝ), (290 : ℝ))] [((150 : ℝ), (350 : ℝ))]
        [((200 : ℝ), (290 : ℝ))] ([((150 : ℝ), (300 : ℝ))].map finPt))
      (bestScore [((100 : ℝ), (290 : ℝ))] [((150 : ℝ), (350 : ℝ))]
        [((200 : ℝ), (290 : ℝ))] ([((150 : ℝ), (300 : ℝ))].map finPt)) :=
  ⟨by simp, grid_refinement_monotone _ (by simp) _ _ _ _ _ _
    (List.Subset.refl _) (List.Subset.refl _) (List.Subset.refl _)⟩

end SluggerOpti

namespace SluggerOpti

/-- Modelled from the spec: scenario 1's LF zone grid, x∈[60,120],
y∈[250,350], grid step 20 (the repository's source hard-codes its grids;
the configurable-grid entry point `optimize_three` is not in the sources,
so the scenario grid is built from the spec's words). -/
noncomputable def scnLF : List (ℝ × ℝ) :=
  [(60 : ℝ), 80, 100, 120].flatMap
    (fun x => [(250 : ℝ), 270, 290, 310, 330, 350].map (fun y => (x, y)))

/-- Modelled from the spec: scenario 1's CF zone grid, x∈[120,180],
y∈[300,400], grid step 20. -/
noncomputable def scnCF : List (ℝ × ℝ) :=
  [(120 : ℝ), 140, 160, 180].flatMap
    (fun x => [(300 : ℝ), 320, 340, 360, 380, 400].map (fun y => (x, y)))

/-- Modelled from the spec: scenario 1's RF zone grid, x∈[180,240],
y∈[250,350], grid step 20. -/
noncomputable def scnRF : List (ℝ × ℝ) :=
  [(180 : ℝ), 200, 220, 240].flatMap
    (fun x => [(250 : ℝ), 270, 290, 310, 330, 350].map (fun y => (x, y)))

/-- The LF candidates enumerated before (100,290). -/
noncomputable def scnA : List (ℝ × ℝ) :=
  [(60, 250), (60, 270), (60, 290), (60, 310), (60, 330), (60, 350),
   (80, 250), (80, 270), (80, 290), (80, 310), (80, 330), (80, 350),
   (100, 250), (100, 270)]

/-- The LF candidates enumerated after (100,290). -/
noncomputable def scnB : List (ℝ × ℝ) :=
  [(100, 310), (100, 330), (100, 350),
   (120, 250), (120, 270), (120, 290), (120, 310), (120, 330), (120, 350)]

/-- The scenario LF grid splits around the candidate (100,290). -/
theorem scnLF_decomp :
    scnLF = scnA ++ (((100 : ℝ), (290 : ℝ)) :: scnB) := rfl

/-- The triple the scenario search returns. -/
noncomputable def scnBest : Placement :=
  ⟨((100 : ℝ), (290 : ℝ)), ((120 : ℝ), (300 : ℝ)), ((180 : ℝ), (250 : ℝ))⟩

/-- Lower-bounding a Euclidean distance strictly by bounding squares. -/
theorem lt_rdist {c : ℝ} {p g : ℝ × ℝ} (hc : 0 ≤ c)
    (h : c ^ 2 < (p.1 - g.1) ^ 2 + (p.2 - g.2) ^ 2) : c < rdist p g := by
  rw [rdist]
  calc c = Real.sqrt (c ^ 2) := (Real.sqrt_sq hc).symm
    _ < Real.sqrt ((p.1 - g.1) ^ 2 + (p.2 - g.2) ^ 2) :=
        Real.sqrt_lt_sqrt (sq_nonneg c) h

/-- Lower-bounding a Euclidean distance by bounding squares. -/
theorem le_rdist {c : ℝ} {p g : ℝ × ℝ} (hc : 0 ≤ c)
    (h : c ^ 2 ≤ (p.1 - g.1) ^ 2 + (p.2 - g.2) ^ 2) : c ≤ rdist p g := by
  rw [rdist]
  calc c = Real.sqrt (c ^ 2) := (Real.sqrt_sq hc).symm
    _ ≤ Real.sqrt ((p.1 - g.1) ^ 2 + (p.2 - g.2) ^ 2) := Real.sqrt_le_sqrt h

/-- The distance from the scenario point to the best LF candidate is
exactly 10. -/
theorem rdist_best : rdist ((100 : ℝ), (300 : ℝ)) ((100 : ℝ), (290 : ℝ)) = 10 := by
  have h : ((((100 : ℝ), (300 : ℝ)) : ℝ × ℝ).1 - (((100 : ℝ), (290 : ℝ)) : ℝ × ℝ).1) ^ 2 +
      ((((100 : ℝ), (300 : ℝ)) : ℝ × ℝ).2 - (((100 : ℝ), (290 : ℝ)) : ℝ × ℝ).2) ^ 2 =
      10 ^ 2 := by norm_num
  rw [rdist, h, Real.sqrt_sq (by norm_num : (0 : ℝ) ≤ 10)]

/-- Every LF candidate enumerated before (100,290) is strictly farther
than 10 from the scenario point. -/
theorem scnA_far : ∀ p ∈ scnA, 10 < rdist ((100 : ℝ), (300 : ℝ)) p := by
  intro p hp
  simp only [scnA, List.mem_cons, List.not_mem_nil, or_false] at hp
  rcases hp with rfl | rfl | rfl | rfl | rfl | rfl | rfl | rfl | rfl | rfl |
    rfl | rfl | rfl | rfl <;>
    · apply lt_rdist (by norm_num)
      norm_num

/-- Every scenario CF candidate is strictly farther than 10 from the
scenario point. -/
theorem scnCF_far : ∀ p ∈ scnCF, 10 < rdist ((100 : ℝ), (300 : ℝ)) p := by
  intro p hp
  simp only [scnCF, List.mem_flatMap, List.mem_map] at hp
  obtain ⟨x, hx, y, hy, rfl⟩ := hp
  simp only [List.mem_cons, List.not_mem_nil, or_false] at hx hy
  rcases hx with rfl | rfl | rfl | rfl <;>
    rcases hy with rfl | rfl | rfl | rfl | rfl | rfl <;>
    · apply lt_rdist (by norm_num)
      norm_num

/-- Every scenario RF candidate is strictly farther than 10 from the
scenario point. -/
theorem scnRF_far : ∀ p ∈ scnRF, 10 < rdist ((100 : ℝ), (300 : ℝ)) p := by
  intro p hp
  simp only [scnRF, List.mem_flatMap, List.mem_map] at hp
  obtain ⟨x, hx, y, hy, rfl⟩ := hp
  simp only [List.mem_cons, List.not_mem_nil, or_false] at hx hy
  rcases hx with rfl | rfl | rfl | rfl <;>
    rcases hy with rfl | rfl | rfl | rfl | rfl | rfl <;>
    · apply lt_rdist (by norm_num)
      norm_num

/-- Every scenario LF candidate is at distance at least 10 from the
scenario point. -/
theorem scnLF_ge : ∀ p ∈ scnLF, 10 ≤ rdist ((100 : ℝ), (300 : ℝ)) p := by
  intro p hp
  simp only [scnLF, List.mem_flatMap, List.mem_map] at hp
  obtain ⟨x, hx, y, hy, rfl⟩ := hp
  simp only [List.mem_cons, List.not_mem_nil, or_false] at hx hy
  rcases hx with rfl | rfl | rfl | rfl <;>
    rcases hy with rfl | rfl | rfl | rfl | rfl | rfl <;>
    · apply le_rdist (by norm_num)
      norm_num

/-- `total_distance` over a single point is that point's minimum distance
to the three candidates. -/
theorem realTotal_singleton (p : ℝ × ℝ) (t : Placement) :
    realTotal [p] t =
      min (min (rdist p t.LF) (rdist p t.CF)) (rdist p t.RF) := by
  simp [realTotal]

end SluggerOpti

namespace SluggerOpti

/-- C8: for the single point (100,300) and the scenario grids at step 20,
the min-distance search returns LF=(100,290) — a nearest LF candidate to
the point — the choice of CF/RF candidate cannot change the optimal cost,
and the optimal total distance is the distance to that LF candidate,
namely 10. -/
theorem scenario_single_point :
    optimizeThree scnLF scnCF scnRF [finPt ((100 : ℝ), (300 : ℝ))] =
      some (10, scnBest) ∧
    scnBest.LF = ((100 : ℝ), (290 : ℝ)) ∧
    rdist ((100 : ℝ), (300 : ℝ)) ((100 : ℝ), (290 : ℝ)) = 10 ∧
    (∀ c ∈ scnLF, rdist ((100 : ℝ), (300 : ℝ)) ((100 : ℝ), (290 : ℝ)) ≤
      rdist ((100 : ℝ), (300 : ℝ)) c) ∧
    (∀ cf ∈ scnCF, ∀ rf ∈ scnRF,
      realTotal [((100 : ℝ), (300 : ℝ))] ⟨((100 : ℝ), (290 : ℝ)), cf, rf⟩ = 10) := by
  have hbridge : ∀ t : Placement,
      totalDistance [finPt ((100 : ℝ), (300 : ℝ))] t =
        some (realTotal [((100 : ℝ), (300 : ℝ))] t) := fun t =>
    totalDistance_finPt [((100 : ℝ), (300 : ℝ))] t
  have hcfmem : ((120 : ℝ), (300 : ℝ)) ∈ scnCF := by simp [scnCF]
  have hrfmem : ((180 : ℝ), (250 : ℝ)) ∈ scnRF := by simp [scnRF]
  have hcost_eq : ∀ cf ∈ scnCF, ∀ rf ∈ scnRF,
      realTotal [((100 : ℝ), (300 : ℝ))] ⟨((100 : ℝ), (290 : ℝ)), cf, rf⟩ = 10 := by
    intro cf hcf rf hrf
    rw [realTotal_singleton]
    show min (min (rdist ((100 : ℝ), (300 : ℝ)) ((100 : ℝ), (290 : ℝ)))
      (rdist ((100 : ℝ), (300 : ℝ)) cf)) (rdist ((100 : ℝ), (300 : ℝ)) rf) = 10
    rw [rdist_best, min_eq_left (le_of_lt (scnCF_far cf hcf)),
      min_eq_left (le_of_lt (scnRF_far rf hrf))]
  have hm : totalDistance [finPt ((100 : ℝ), (300 : ℝ))] scnBest = some 10 := by
    rw [hbridge]
    exact congrArg some (hcost_eq _ hcfmem _ hrfmem)
  obtain ⟨R, hR⟩ : ∃ R, prodTriples (((100 : ℝ), (290 : ℝ)) :: scnB) scnCF scnRF =
      scnBest :: R := ⟨_, rfl⟩
  have hsplit : prodTriples scnLF scnCF scnRF =
      prodTriples scnA scnCF scnRF ++ scnBest :: R := by
    rw [scnLF_decomp, prodTriples_append, hR]
  have hl1 : ∀ x ∈ prodTriples scnA scnCF scnRF,
      ∃ c, totalDistance [finPt ((100 : ℝ), (300 : ℝ))] x = some c ∧ 10 < c := by
    intro x hx
    obtain ⟨m1, m2, m3⟩ := mem_prodTriples.mp hx
    refine ⟨realTotal [((100 : ℝ), (300 : ℝ))] x, hbridge x, ?_⟩
    rw [realTotal_singleton]
    exact lt_min (lt_min (scnA_far _ m1) (scnCF_far _ m2)) (scnRF_far _ m3)
  have hl2 : ∀ x ∈ R, ∀ c,
      totalDistance [finPt ((100 : ℝ), (300 : ℝ))] x = some c → 10 ≤ c := by
    intro x hxR c hc
    have hxfull : x ∈ prodTriples scnLF scnCF scnRF := by
      rw [hsplit]
      exact List.mem_append_right _ (List.mem_cons_of_mem _ hxR)
    obtain ⟨m1, m2, m3⟩ := mem_prodTriples.mp hxfull
    rw [hbridge x] at hc
    rw [← Option.some.inj hc, realTotal_singleton]
    exact le_min (le_min (scnLF_ge _ m1) (le_of_lt (scnCF_far _ m2)))
      (le_of_lt (scnRF_far _ m3))
  have hrun := runBest_concrete (totalDistance [finPt ((100 : ℝ), (300 : ℝ))])
    10 scnBest (prodTriples scnA scnCF scnRF) R hl1 hm hl2
  refine ⟨?_, rfl, rdist_best, ?_, hcost_eq⟩
  · rw [optimizeThree, hsplit]
    exact hrun
  · intro c hc
    rw [rdist_best]
    exact scnLF_ge c hc

end SluggerOpti
